import Mathlib

/-!
A shallow embedding of the `yml-helper-builder` rewriter (src/main.go).

The program is a line-oriented text rewriter for Kubernetes Deployment
YAML templates.  Strings are modelled as lists of characters (`Chars`);
the Go regular expressions of the source are translated into explicit
character-level matching functions, keeping Go's default semantics:
`$` matches only at the very end of the text (not before a trailing
newline) and `.` does not match a newline.  Since the scanner hands the
rewriter lines that still carry their trailing newline, a regex of the
shape `^...(.*)$` matches a newline-terminated line only when the part
after the last newline-free gap works out; this asymmetry is preserved
faithfully below.  Byte positions coincide with character positions for
the ASCII inputs considered here.
-/

deriving instance DecidableEq for Except

namespace YmlHelper

set_option maxRecDepth 100000

abbrev Chars := List Char

/-- Character list of a string literal. -/
def strOf (s : String) : Chars := s.data

/-- Characters matched by the Go regexp class `\s`, i.e. tab, newline,
form feed, carriage return and space. -/
def isGoSpace (c : Char) : Bool :=
  c = ' ' || c = '\t' || c = '\n' || c = '\x0c' || c = '\r'

/-- Characters accepted by `unicode.IsSpace` (`strings.TrimSpace`),
restricted to the Latin-1 range. -/
def isUniSpace (c : Char) : Bool :=
  c = ' ' || ('\t' ≤ c && c ≤ '\r') || c = '\x85' || c = '\xA0'

/-- The Go regexp class `[A-Za-z0-9_.-]` used for YAML keys. -/
def isKeyChar (c : Char) : Bool :=
  ('A' ≤ c && c ≤ 'Z') || ('a' ≤ c && c ≤ 'z') || ('0' ≤ c && c ≤ '9') ||
    c = '_' || c = '.' || c = '-'

/-- The Go regexp class `[A-Za-z0-9]` used for the `kind:` value. -/
def isAlnumChar (c : Char) : Bool :=
  ('A' ≤ c && c ≤ 'Z') || ('a' ≤ c && c ≤ 'z') || ('0' ≤ c && c ≤ '9')

/-- Drop the trailing run of characters satisfying `p`. -/
def dropTrailing (p : Char → Bool) (l : Chars) : Chars :=
  (l.reverse.dropWhile p).reverse

/-- `countIndent` / `leadingSpaces` from main.go: the number of leading
space characters (spaces only, not tabs). -/
def countIndent (l : Chars) : Nat := (l.takeWhile (fun c => c = ' ')).length

/-- `strings.TrimLeft(line, " ")`. -/
def trimLeftSpaces (l : Chars) : Chars := l.dropWhile (fun c => c = ' ')

/-- `strings.TrimSpace`. -/
def trimSpace (l : Chars) : Chars :=
  dropTrailing isUniSpace (l.dropWhile isUniSpace)

/-- A double or single quote character (the cutset of
`strings.Trim(val, "\"'")` in `detectBaseFromTopMetadataName`). -/
def isQuoteChar (c : Char) : Bool := c = '"' || c = Char.ofNat 39

/-- `strings.Trim(val, "\"'")`: strip leading and trailing quote
characters (of either kind, repeatedly). -/
def trimQuotes (l : Chars) : Chars :=
  dropTrailing isQuoteChar (l.dropWhile isQuoteChar)

/-- `strings.Contains s pat` (pattern given first so that the
recursion is structural in the text). -/
def containsSub (pat : Chars) : Chars → Bool
  | [] => pat.isPrefixOf ([] : Chars)
  | c :: rest => pat.isPrefixOf (c :: rest) || containsSub pat rest

/-- Helper for `countSub`: `skip` counts positions still covered by the
previously counted occurrence (Go's `strings.Count` counts
non-overlapping occurrences, resuming the scan after a full match). -/
def countSubGo (pat : Chars) : Nat → Chars → Nat
  | _, [] => 0
  | 0, c :: rest =>
    if pat.isPrefixOf (c :: rest) then 1 + countSubGo pat (pat.length - 1) rest
    else countSubGo pat 0 rest
  | k + 1, _ :: rest => countSubGo pat k rest

/-- `strings.Count s pat` for a nonempty pattern. -/
def countSub (s pat : Chars) : Nat := countSubGo pat 0 s

/-- `strings.SplitN(s, pat, 2)`: the text before and after the first
occurrence of `pat`, or `none` when `pat` does not occur. -/
def splitFirst (pat : Chars) : Chars → Option (Chars × Chars)
  | [] => if pat.isPrefixOf ([] : Chars) then some ([], []) else none
  | c :: rest =>
    if pat.isPrefixOf (c :: rest) then some ([], (c :: rest).drop pat.length)
    else
      match splitFirst pat rest with
      | some (a, b) => some (c :: a, b)
      | none => none

/-- Prepend a character to the first segment. -/
def consHead (c : Char) : List Chars → List Chars
  | [] => [[c]]
  | s :: ss => (c :: s) :: ss

/-- `strings.Split(s, "\n")`: the (always nonempty) list of segments
between newlines. -/
def splitNL : Chars → List Chars
  | [] => [[]]
  | c :: rest =>
    if c = '\n' then [] :: splitNL rest else consHead c (splitNL rest)

/-- Go regexp `^(\s*)([A-Za-z0-9_.-]+):(?:\s*(.*))?$` (`reKey`).
Returns `(indent, key, value)`.  Because `$` only matches at the end of
the text and `.` does not match a newline, a line that still carries its
trailing newline matches only when everything after the colon and after
a maximal whitespace run is newline-free; in particular a
newline-terminated `key: value` line does NOT match. -/
def matchKey (l : Chars) : Option (Nat × Chars × Chars) :=
  let ws := l.takeWhile isGoSpace
  let r1 := l.dropWhile isGoSpace
  let key := r1.takeWhile isKeyChar
  let r2 := r1.dropWhile isKeyChar
  if key = [] then none
  else
    match r2 with
    | ':' :: rest =>
      let v := rest.dropWhile isGoSpace
      if v.contains '\n' then none else some (ws.length, key, v)
    | _ => none

/-- Go regexp `^\s*kind:\s*([A-Za-z0-9]+)\s*$` (`reKind`). -/
def matchKind (l : Chars) : Option Chars :=
  let r1 := l.dropWhile isGoSpace
  if (strOf "kind:").isPrefixOf r1 then
    let r2 := (r1.drop 5).dropWhile isGoSpace
    let k := r2.takeWhile isAlnumChar
    let r3 := r2.dropWhile isAlnumChar
    if k = [] then none
    else if r3.all isGoSpace then some k else none
  else none

/-- Go regexp `^(\s*)metadata:\s*$` (`reMeta`); returns the indent. -/
def matchMeta (l : Chars) : Option Nat :=
  let ws := l.takeWhile isGoSpace
  let r1 := l.dropWhile isGoSpace
  if (strOf "metadata:").isPrefixOf r1 && (r1.drop 9).all isGoSpace then
    some ws.length
  else none

/-- Go regexp `^\s*name:\s*(.+?)\s*$` (`reName` / `reNameKV`); returns
the captured value, which runs from the first non-whitespace character
after `name:` to the last non-whitespace character of the line. -/
def matchNameKV (l : Chars) : Option Chars :=
  let r1 := l.dropWhile isGoSpace
  if (strOf "name:").isPrefixOf r1 then
    let r2 := (r1.drop 5).dropWhile isGoSpace
    let v := dropTrailing isGoSpace r2
    if v = [] then none
    else if v.contains '\n' then none else some v
  else none

/-- Go regexp `^(\s*)-\s*name:\s*(.+?)\s*$` (`reDashName`); returns the
leading-whitespace capture and the value. -/
def matchDashName (l : Chars) : Option (Chars × Chars) :=
  let ws := l.takeWhile isGoSpace
  let r1 := l.dropWhile isGoSpace
  match r1 with
  | '-' :: r2 =>
    let r3 := r2.dropWhile isGoSpace
    if (strOf "name:").isPrefixOf r3 then
      let r4 := (r3.drop 5).dropWhile isGoSpace
      let v := dropTrailing isGoSpace r4
      if v = [] then none
      else if v.contains '\n' then none else some (ws, v)
    else none
  | _ => none

/-- One position of the unanchored Go regexp
`include +"auki\.selectorLabelsFor"` (`reIncludeSelector`). -/
def includeSelAt (l : Chars) : Bool :=
  if (strOf "include").isPrefixOf l then
    match l.drop 7 with
    | ' ' :: r2 =>
      (strOf "\"auki.selectorLabelsFor\"").isPrefixOf
        (r2.dropWhile (fun c => c = ' '))
    | _ => false
  else false

/-- `reIncludeSelector.MatchString`. -/
def hasIncludeSelector : Chars → Bool
  | [] => false
  | c :: rest => includeSelAt (c :: rest) || hasIncludeSelector rest

/-! ### Literal fragments emitted by the rewriter -/

/-- The header-presence marker `include "auki.nameFor"` tested with
`strings.Contains` and `strings.Count`. -/
def nameForMarker : Chars := strOf "include \"auki.nameFor\""

/-- The full `$name` line of the header, used by the duplicate-header
collapse (`strings.SplitN`). -/
def nameHeaderLine : Chars :=
  strOf "\x7b\x7b- $name := include \"auki.nameFor\" (dict \"ctx\" $ctx \"base\" $base) -\x7d\x7d"

/-- `headerBlockTmpl` instantiated with the detected base. -/
def headerFor (base : Chars) : Chars :=
  strOf "\x7b\x7b- $base := \"" ++ base ++ strOf "\" -\x7d\x7d\n" ++
    strOf "\x7b\x7b- $ctx := . -\x7d\x7d\n" ++ nameHeaderLine ++ strOf "\n\n"

/-- `%d` formatting of a Go int. -/
def intDigits : Int → Chars
  | .ofNat m => Nat.toDigits 10 m
  | .negSucc m => '-' :: Nat.toDigits 10 (m + 1)

/-- `includeSelector` instantiated with the `nindent` argument. -/
def includeLineFor (n : Int) : Chars :=
  strOf "\x7b\x7b- include \"auki.selectorLabelsFor\" (dict \"ctx\" $ctx \"base\" $base) | nindent " ++
    intDigits n ++ strOf " \x7d\x7d"

/-- The last `n` bytes of a buffer (`tail = tail[len(tail)-800:]`). -/
def tailBytes (n : Nat) (s : Chars) : Chars := s.drop (s.length - n)

/-- `ensureSelectorInclude`: append the include line unless the last 800
bytes of the buffer already match `reIncludeSelector`. -/
def ensureSelectorInclude (buf : Chars) (n : Int) : Chars :=
  if hasIncludeSelector (tailBytes 800 buf) then buf
  else buf ++ includeLineFor n ++ ['\n']

/-- `isAppLabelLine`: the trimmed line starts with `app:` and the line's
leading-space count is at least `expected`. -/
def isAppLabelLine (l : Chars) (expected : Int) : Bool :=
  (strOf "app:").isPrefixOf (trimSpace l) && expected ≤ (countIndent l : Int)

/-- `spaces(n)` from main.go. -/
def spacesI (n : Int) : Chars := List.replicate n.toNat ' '

/-- `strings.HasSuffix(base, "-green")` followed by
`strings.TrimSuffix`. -/
def stripGreen (b : Chars) : Chars :=
  if (strOf "-green").isSuffixOf b then b.take (b.length - 6) else b

/-! ### splitKeepNL -/

/-- `dropCR` of `bufio.ScanLines`: remove one trailing carriage
return. -/
def dropTrailingCR (l : Chars) : Chars :=
  if l.getLast? = some '\r' then l.dropLast else l

/-- Remove the trailing newline of the last element
(`out[len(out)-1] = strings.TrimSuffix(out[len(out)-1], "\n")`). -/
def trimLastNL : List Chars → List Chars
  | [] => []
  | [l] => [if l.getLast? = some '\n' then l.dropLast else l]
  | l :: l2 :: ls => l :: trimLastNL (l2 :: ls)

/-- `splitKeepNL`: split into lines, each re-terminated with a newline,
except that a file not ending in a newline keeps its last line bare. -/
def splitKeepNL (content : Chars) : List Chars :=
  if content = [] then []
  else
    let endsNL := content.getLast? = some '\n'
    let segs := if endsNL then (splitNL content).dropLast else splitNL content
    let out := segs.map (fun l => dropTrailingCR l ++ ['\n'])
    if endsNL then out else trimLastNL out

/-! ### Base-name detection -/

def errNotFound : Chars := strOf "top-level metadata.name not found for Deployment"

def errTemplated : Chars := strOf "metadata.name already templated; abort base detection"

/-- The loop of `detectBaseFromTopMetadataName`, carried over the
remaining lines with state `(kind, inMeta, metaIndent)`. -/
def detectLoop : List Chars → Chars → Bool → Int → Except Chars Chars
  | [], _, _, _ => .error errNotFound
  | line :: rest, kind, inMeta, mi =>
    match matchKind line with
    | some k => detectLoop rest k false (-1)
    | none =>
      if kind ≠ strOf "Deployment" then detectLoop rest kind inMeta mi
      else if inMeta = false then
        match matchMeta line with
        | some w => detectLoop rest kind true (w : Int)
        | none => detectLoop rest kind false mi
      else if trimSpace line = [] then detectLoop rest kind true mi
      else if (countIndent line : Int) ≤ mi then detectLoop rest kind false mi
      else if (countIndent line : Int) = mi + 2 then
        match matchNameKV (trimLeftSpaces line) with
        | some v =>
          let val := trimQuotes (trimSpace v)
          if containsSub (strOf "\x7b\x7b") val then .error errTemplated else .ok val
        | none => detectLoop rest kind true mi
      else detectLoop rest kind true mi

/-- `detectBaseFromTopMetadataName`. -/
def detectBase (content : Chars) : Except Chars Chars :=
  detectLoop (splitNL content) [] false (-1)

/-! ### The line-rewriting state machine -/

/-- The `blockState` enumeration of `processFile` (`none` is called
`ground` here). -/
inductive BState where
  | ground
  | inTopMetadata
  | inTopLabels
  | inTemplateMetadata
  | inTemplateLabels
  | inContainersList
deriving DecidableEq

/-- The mutable loop state of `processFile`.  The key-path stack keeps
its top at the head (Go appends to and pops from the end of a slice). -/
structure St where
  kind : Chars
  stack : List (Nat × Chars)
  bstate : BState
  topMetaIndent : Int
  labelsIndent : Int
  tplLabelsIndent : Int
  buf : Chars
deriving DecidableEq

/-- Dot-join of key names. -/
def joinDots : List Chars → Chars
  | [] => []
  | [k] => k
  | k :: k2 :: ks => k ++ '.' :: joinDots (k2 :: ks)

/-- `pathOf`: the dotted path, outermost key first (the stack stores the
innermost key at the head). -/
def pathOf (stack : List (Nat × Chars)) : Chars :=
  joinDots ((stack.map Prod.snd).reverse)

/-- The state-transition part of the scan loop for a key line
(`reKey` matched): pop and push the key stack and, for Deployment
documents, switch the block state. -/
def keyStep (st : St) (kind : Chars) (indent : Nat) (key val : Chars) : St :=
  let stack := (indent, key) :: st.stack.dropWhile (fun e => decide (indent ≤ e.1))
  let p := pathOf stack
  if kind = strOf "Deployment" then
    if p = strOf "metadata" ∧ val = [] then
      { st with stack := stack, bstate := BState.inTopMetadata,
                topMetaIndent := (indent : Int) }
    else if st.bstate = BState.inTopMetadata ∧ key = strOf "labels" ∧ val = [] then
      { st with stack := stack, bstate := BState.inTopLabels,
                labelsIndent := (indent : Int) }
    else if p = strOf "spec.template.metadata" ∧ val = [] then
      { st with stack := stack, bstate := BState.inTemplateMetadata }
    else if st.bstate = BState.inTemplateMetadata ∧ key = strOf "labels" ∧ val = [] then
      { st with stack := stack, bstate := BState.inTemplateLabels,
                tplLabelsIndent := (indent : Int) }
    else if p = strOf "spec.template.spec.containers" ∧ val = [] then
      { st with stack := stack, bstate := BState.inContainersList }
    else { st with stack := stack }
  else { st with stack := stack }

/-- The state-transition part for a non-key line with leading-space
count `ci`: close a pending labels block (injecting the include line)
and pop the stack by the dedent rule. -/
def gapStep (st : St) (ci : Nat) : St :=
  let st1 :=
    if st.bstate = BState.inTopLabels ∧ (ci : Int) ≤ st.labelsIndent then
      { st with buf := ensureSelectorInclude st.buf (st.labelsIndent + 2),
                bstate := BState.inTopMetadata }
    else if st.bstate = BState.inTemplateLabels ∧ (ci : Int) ≤ st.tplLabelsIndent then
      { st with buf := ensureSelectorInclude st.buf (st.tplLabelsIndent + 2),
                bstate := BState.inTemplateMetadata }
    else st
  { st1 with stack := st1.stack.dropWhile (fun e => decide (ci ≤ e.1)) }

/-- The rewrite switch at the bottom of the loop body: emit a rewritten
line, drop the line, or copy it. -/
def emitStep (st2 : St) (line : Chars) : St :=
  if st2.kind = strOf "Deployment" ∧ st2.bstate = BState.inTopMetadata
      ∧ (matchNameKV (trimLeftSpaces line)).isSome
      ∧ (countIndent line : Int) = st2.topMetaIndent + 2 then
    { st2 with buf := st2.buf ++ spacesI (st2.topMetaIndent + 2) ++
                        strOf "name: \x7b\x7b $name \x7d\x7d\n" }
  else if st2.kind = strOf "Deployment" ∧ st2.bstate = BState.inTopLabels
      ∧ isAppLabelLine line (st2.labelsIndent + 2) then st2
  else if st2.kind = strOf "Deployment" ∧ st2.bstate = BState.inTemplateLabels
      ∧ isAppLabelLine line (st2.tplLabelsIndent + 2) then st2
  else if st2.kind = strOf "Deployment" ∧ st2.bstate = BState.inContainersList
      ∧ (matchDashName line).isSome then
    match matchDashName line with
    | some (ind, _) =>
      { st2 with buf := st2.buf ++ ind ++ strOf "- name: \x7b\x7b $base \x7d\x7d\n" }
    | none => { st2 with buf := st2.buf ++ line }
  else { st2 with buf := st2.buf ++ line }

/-- One iteration of the scan loop of `processFile` for one line:
update the kind, take the key or the non-key branch, then run the
rewrite switch. -/
def step (st : St) (line : Chars) : St :=
  let kind := match matchKind line with | some k => k | none => st.kind
  let st1 :=
    match matchKey line with
    | some (indent, key, val) => keyStep st kind indent key val
    | none => gapStep st (countIndent line)
  emitStep { st1 with kind := kind } line

/-- The scan loop over all lines. -/
def stepAll (st : St) (lines : List Chars) : St := lines.foldl step st

/-- The loop state at the top of `processFile`, with the initial output
buffer (empty, or the freshly inserted header). -/
def initSt (buf0 : Chars) : St :=
  { kind := [], stack := [], bstate := .ground, topMetaIndent := -1,
    labelsIndent := -1, tplLabelsIndent := -1, buf := buf0 }

/-- The duplicate-header repair of `processFile` (the `out` fix-up after
the scan): applies only when the header was inserted by this run and the
marker occurs more than once. -/
def collapseHeader (insertedHeader : Bool) (out : Chars) : Chars :=
  if insertedHeader ∧ 1 < countSub out nameForMarker then
    match splitFirst nameHeaderLine out with
    | some (t, u) =>
      match splitFirst ['\n'] u with
      | some (_, y) => t ++ nameHeaderLine ++ '\n' :: y
      | none => out
    | none => out
  else out

/-- The pure content transformation of `processFile`: everything except
reading the file and writing the backup and result. -/
def processC (content : Chars) : Except Chars Chars :=
  let hasHeader := containsSub nameForMarker content
  match detectBase content with
  | .error e => .error (strOf "detect base: " ++ e)
  | .ok b0 =>
    let base := stripGreen b0
    let startBuf := if hasHeader then [] else headerFor base
    let fin := stepAll (initSt startBuf) (splitKeepNL content)
    let buf1 :=
      if fin.bstate = BState.inTopLabels then
        ensureSelectorInclude fin.buf (fin.labelsIndent + 2)
      else fin.buf
    let buf2 :=
      if fin.bstate = BState.inTemplateLabels then
        ensureSelectorInclude buf1 (fin.tplLabelsIndent + 2)
      else buf1
    .ok (collapseHeader (!hasHeader) buf2)

/-- The file content after one driver pass over one file: on success the
transformed output replaces the content, on error the file is left as it
was. -/
def runOnce (c : Chars) : Chars :=
  match processC c with
  | .ok o => o
  | .error _ => c

/-- The driver loop of `main` over a batch of `(path, content)` files:
returns the resulting filesystem entries (in file order, a `.bak` entry
before each rewritten file) and the per-file console reports. -/
def runBatch : List (Chars × Chars) → List (Chars × Chars) × List Chars
  | [] => ([], [])
  | (p, c) :: rest =>
    let acc := runBatch rest
    match processC c with
    | .ok o =>
      ((p ++ strOf ".bak", c) :: (p, o) :: acc.1, (strOf "updated " ++ p) :: acc.2)
    | .error e =>
      ((p, c) :: acc.1, (strOf "ERROR " ++ p ++ strOf ": " ++ e) :: acc.2)

/-! ### Generic helper lemmas about the character-level functions -/

theorem goSpace_uniSpace {c : Char} (h : isGoSpace c = true) : isUniSpace c = true := by
  unfold isGoSpace at h
  simp only [Bool.or_eq_true, decide_eq_true_eq] at h
  rcases h with (((h | h) | h) | h) | h <;> subst h <;> decide

theorem dropWhile_append_of_all {p : Char → Bool} {a b : Chars}
    (h : ∀ c ∈ a, p c = true) : (a ++ b).dropWhile p = b.dropWhile p := by
  induction a with
  | nil => rfl
  | cons c t ih =>
    simp only [List.cons_append, List.dropWhile_cons, h c (by simp)]
    exact ih fun x hx => h x (by simp [hx])

theorem dropWhile_eq_self_of_all {p : Char → Bool} {a : Chars}
    (h : ∀ c ∈ a, p c = false) : a.dropWhile p = a := by
  cases a with
  | nil => rfl
  | cons c t => simp [List.dropWhile_cons, h c (by simp)]

theorem dropTrailing_eq_self_of_all {p : Char → Bool} {a : Chars}
    (h : ∀ c ∈ a, p c = false) : dropTrailing p a = a := by
  unfold dropTrailing
  rw [dropWhile_eq_self_of_all fun c hc => h c (List.mem_reverse.mp hc),
    List.reverse_reverse]

theorem dropTrailing_isPrefixOf_self (p : Char → Bool) (a : Chars) :
    dropTrailing p a <+: a := by
  have := List.reverse_prefix.mpr (List.dropWhile_suffix (l := a.reverse) p)
  simpa [dropTrailing] using this

theorem contains_eq_false_of_not_mem {a : Chars} {c : Char} (h : c ∉ a) :
    a.contains c = false := by
  rw [List.contains, Bool.eq_false_iff]
  intro hc
  exact h (List.elem_iff.mp hc)

theorem trimSpace_eq_nil_iff {l : Chars} :
    trimSpace l = [] ↔ ∀ c ∈ l, isUniSpace c = true := by
  unfold trimSpace dropTrailing
  rw [List.reverse_eq_nil_iff, List.dropWhile_eq_nil_iff]
  constructor
  · intro h c hc
    rw [← List.takeWhile_append_dropWhile (p := isUniSpace) (l := l)] at hc
    rcases List.mem_append.mp hc with h1 | h1
    · exact List.mem_takeWhile_imp h1
    · exact h c (List.mem_reverse.mpr h1)
  · intro h c hc
    exact h c ((List.dropWhile_suffix isUniSpace).sublist.subset (List.mem_reverse.mp hc))

theorem splitNL_ne_nil (l : Chars) : splitNL l ≠ [] := by
  induction l with
  | nil => simp [splitNL]
  | cons c t ih =>
    unfold splitNL
    by_cases hc : c = '\n'
    · simp [hc]
    · simp only [if_neg hc]
      cases h : splitNL t with
      | nil => simp [consHead]
      | cons s ss => simp [consHead]

theorem splitNL_append {a b : Chars} (h : '\n' ∉ a) :
    splitNL (a ++ '\n' :: b) = a :: splitNL b := by
  induction a with
  | nil => simp [splitNL]
  | cons c t ih =>
    have hc : ¬ c = '\n' := fun e => h (by simp [e])
    have ht : '\n' ∉ t := fun m => h (by simp [m])
    have hstep : splitNL (c :: (t ++ '\n' :: b)) =
        consHead c (splitNL (t ++ '\n' :: b)) := by
      rw [splitNL.eq_def]
      simp [hc]
    rw [List.cons_append, hstep, ih ht]
    simp [consHead]

/-! ### The stack-ordering invariant -/

/-- Strict ordering of the key-path stack: the innermost entry (at the
head) carries the largest indent, so indents strictly increase from the
outermost entry to the innermost one. -/
def StackOrd (s : List (Nat × Chars)) : Prop :=
  List.Chain' (fun a b => b.1 < a.1) s

/-- Executable check of `StackOrd`. -/
def stackOrdB : List (Nat × Chars) → Bool
  | [] => true
  | [_] => true
  | a :: b :: t => decide (b.1 < a.1) && stackOrdB (b :: t)

theorem stackOrd_iff : ∀ (s : List (Nat × Chars)), StackOrd s ↔ stackOrdB s = true
  | [] => by simp [StackOrd, stackOrdB]
  | [a] => by simp [StackOrd, stackOrdB]
  | a :: b :: t => by
    have ih := stackOrd_iff (b :: t)
    simp only [StackOrd, List.chain'_cons, stackOrdB, Bool.and_eq_true, decide_eq_true_eq]
    rw [show List.Chain' (fun x y => y.1 < x.1) (b :: t) = StackOrd (b :: t) from rfl, ih]

instance (s : List (Nat × Chars)) : Decidable (StackOrd s) :=
  decidable_of_iff (stackOrdB s = true) (stackOrd_iff s).symm

theorem dropWhile_head_not {α : Type} {p : α → Bool} {l : List α} {x : α} {t : List α}
    (h : l.dropWhile p = x :: t) : p x = false := by
  induction l with
  | nil => simp [List.dropWhile] at h
  | cons c r ih =>
    rw [List.dropWhile_cons] at h
    by_cases hc : p c
    · rw [if_pos hc] at h; exact ih h
    · rw [if_neg hc] at h
      cases h
      exact Bool.eq_false_iff.mpr hc

theorem stackOrd_dropWhile (p : Nat × Chars → Bool) {s : List (Nat × Chars)}
    (h : StackOrd s) : StackOrd (s.dropWhile p) :=
  h.suffix (List.dropWhile_suffix p)

theorem stackOrd_push {i : Nat} {k : Chars} {s : List (Nat × Chars)} (h : StackOrd s) :
    StackOrd ((i, k) :: s.dropWhile (fun e => decide (i ≤ e.1))) := by
  have h1 : StackOrd (s.dropWhile (fun e => decide (i ≤ e.1))) := stackOrd_dropWhile _ h
  unfold StackOrd at h1 ⊢
  rw [List.chain'_cons']
  refine ⟨?_, h1⟩
  intro y hy
  cases hd : s.dropWhile (fun e => decide (i ≤ e.1)) with
  | nil => rw [hd] at hy; simp at hy
  | cons x t =>
    rw [hd] at hy
    simp only [List.head?_cons, Option.mem_def, Option.some.injEq] at hy
    subst hy
    have := dropWhile_head_not hd
    simpa using this

theorem chain'_lt_head {x : Nat × Chars} {t : List (Nat × Chars)}
    (h : StackOrd (x :: t)) : ∀ y ∈ t, y.1 < x.1 := by
  haveI : IsTrans (Nat × Chars) (fun a b => b.1 < a.1) :=
    ⟨fun _ _ _ h1 h2 => lt_trans h2 h1⟩
  have hp := List.chain'_iff_pairwise.mp h
  exact (List.pairwise_cons.mp hp).1

theorem dropWhile_eq_filter_of_ord {i : Nat} {s : List (Nat × Chars)} (h : StackOrd s) :
    s.dropWhile (fun e => decide (i ≤ e.1)) = s.filter (fun e => decide (e.1 < i)) := by
  induction s with
  | nil => rfl
  | cons x t ih =>
    have ht : StackOrd t := (List.chain'_cons'.mp h).2
    by_cases hx : i ≤ x.1
    · rw [List.dropWhile_cons, List.filter_cons,
        if_pos (by simpa using hx), if_neg (by simpa using not_lt.mpr hx)]
      exact ih ht
    · push_neg at hx
      rw [List.dropWhile_cons, List.filter_cons,
        if_neg (by simpa using not_le.mpr hx), if_pos (by simpa using hx)]
      rw [List.filter_eq_self.mpr]
      intro y hy
      simpa using lt_trans (chain'_lt_head h y hy) hx

/-! ### Inversion facts about the matchers -/

theorem matchKey_shape {l : Chars} {i : Nat} {k v : Chars}
    (h : matchKey l = some (i, k, v)) :
    ∃ rest, l.dropWhile isGoSpace = k ++ ':' :: rest := by
  simp only [matchKey] at h
  split at h
  · exact absurd h (by simp)
  · next hk =>
    split at h
    · next c rest hr =>
      split at h
      · exact absurd h (by simp)
      · next hnl =>
        simp only [Option.some.injEq, Prod.mk.injEq] at h
        obtain ⟨_, hkey, _⟩ := h
        subst hkey
        refine ⟨rest, ?_⟩
        conv_lhs => rw [← List.takeWhile_append_dropWhile (p := isKeyChar)
          (l := l.dropWhile isGoSpace)]
        rw [hr]
    · exact absurd h (by simp)

theorem suffix_joinDots_last (ks : List Chars) (k : Chars) :
    k <:+ joinDots (ks ++ [k]) := by
  induction ks with
  | nil => simp [joinDots]
  | cons a t ih =>
    cases t with
    | nil =>
      show k <:+ joinDots [a, k]
      have he : joinDots [a, k] = a ++ '.' :: k := rfl
      rw [he]
      exact (List.suffix_cons '.' k).trans (List.suffix_append a ('.' :: k))
    | cons b t' =>
      show k <:+ joinDots (a :: ((b :: t') ++ [k]))
      have he : joinDots (a :: ((b :: t') ++ [k])) =
          a ++ '.' :: joinDots ((b :: t') ++ [k]) := rfl
      rw [he]
      exact ih.trans ((List.suffix_cons '.' _).trans (List.suffix_append a _))

theorem pathOf_cons_suffix (i : Nat) (k : Chars) (s : List (Nat × Chars)) :
    k <:+ pathOf ((i, k) :: s) := by
  unfold pathOf
  rw [List.map_cons, List.reverse_cons]
  exact suffix_joinDots_last _ k

/-! ### Evaluating the detector on a canonical Deployment prefix -/

theorem nameKV_line (v : Chars) (hne : v ≠ [])
    (hg : ∀ c ∈ v, isGoSpace c = false) :
    matchNameKV (trimLeftSpaces (strOf "  name: " ++ v)) = some v := by
  have hnl : '\n' ∉ v := fun m => by simpa [isGoSpace] using hg '\n' m
  have e1 : trimLeftSpaces (strOf "  name: " ++ v) = strOf "name: " ++ v := by
    simp [trimLeftSpaces, strOf]
  have e2 : (strOf "name: " ++ v).dropWhile isGoSpace = strOf "name: " ++ v := by
    simp [strOf, isGoSpace]
  have e3 : ((strOf "name: " ++ v).drop 5).dropWhile isGoSpace = v := by
    have h5 : (strOf "name: " ++ v).drop 5 = ' ' :: v := by simp [strOf]
    rw [h5, List.dropWhile_cons, if_pos (by decide)]
    exact dropWhile_eq_self_of_all hg
  rw [e1]
  simp only [matchNameKV, e2, e3, dropTrailing_eq_self_of_all hg]
  rw [if_pos (by simp [strOf, List.isPrefixOf]), if_neg hne,
    contains_eq_false_of_not_mem hnl]
  simp

/-- The detector on a Deployment whose top-level `metadata.name` sits at
`metaIndent + 2` with raw value `v`: it returns the quote-trimmed value,
or the already-templated error when that value contains a template
delimiter.  The trailing content `rest` is never examined. -/
theorem detect_template (v rest : Chars) (hne : v ≠ [])
    (hns : ∀ c ∈ v, isUniSpace c = false) :
    detectBase (strOf "kind: Deployment\nmetadata:\n  name: " ++ v ++ '\n' :: rest) =
      (if containsSub (strOf "\x7b\x7b") (trimQuotes v) = true then .error errTemplated
       else .ok (trimQuotes v)) := by
  have hg : ∀ c ∈ v, isGoSpace c = false := by
    intro c hc
    cases hgs : isGoSpace c with
    | false => rfl
    | true => exact absurd (goSpace_uniSpace hgs) (by simp [hns c hc])
  have hnl : '\n' ∉ v := fun m => by simpa [isGoSpace] using hg '\n' m
  have hcontent : strOf "kind: Deployment\nmetadata:\n  name: " ++ v ++ '\n' :: rest =
      strOf "kind: Deployment" ++ '\n' ::
        (strOf "metadata:" ++ '\n' :: ((strOf "  name: " ++ v) ++ '\n' :: rest)) := by
    simp [strOf]
  have hnl2 : '\n' ∉ strOf "  name: " ++ v := by
    intro hm
    rcases List.mem_append.mp hm with h1 | h1
    · revert h1; decide
    · exact hnl h1
  have hsplit : splitNL (strOf "kind: Deployment\nmetadata:\n  name: " ++ v ++ '\n' :: rest) =
      strOf "kind: Deployment" :: strOf "metadata:" ::
        (strOf "  name: " ++ v) :: splitNL rest := by
    rw [hcontent, splitNL_append (by decide), splitNL_append (by decide),
      splitNL_append hnl2]
  have hk1 : matchKind (strOf "kind: Deployment") = some (strOf "Deployment") := by decide
  have hk2 : matchKind (strOf "metadata:") = none := by decide
  have hm2 : matchMeta (strOf "metadata:") = some 0 := by decide
  have hk3 : matchKind (strOf "  name: " ++ v) = none := by
    simp only [matchKind,
      show (strOf "  name: " ++ v).dropWhile isGoSpace = strOf "name: " ++ v from by
        simp [strOf, isGoSpace]]
    rw [if_neg (by simp [strOf, List.isPrefixOf])]
  have hts : ¬ trimSpace (strOf "  name: " ++ v) = [] := by
    intro h
    have := trimSpace_eq_nil_iff.mp h 'n' (by simp [strOf])
    revert this; decide
  have hci : countIndent (strOf "  name: " ++ v) = 2 := by simp [countIndent, strOf]
  have htv : trimSpace v = v := by
    unfold trimSpace
    rw [dropWhile_eq_self_of_all hns, dropTrailing_eq_self_of_all hns]
  unfold detectBase
  rw [hsplit]
  simp only [detectLoop, hk1, hk2, hk3, hm2, hci, hts, htv,
    nameKV_line v hne hg]
  norm_num

theorem trimQuotes_eq_self_of_all {v : Chars} (h : ∀ c ∈ v, isQuoteChar c = false) :
    trimQuotes v = v := by
  unfold trimQuotes
  rw [dropWhile_eq_self_of_all h, dropTrailing_eq_self_of_all h]

theorem trimQuotes_wrap {q : Char} (hq : isQuoteChar q = true) {w : Chars}
    (hnq : ∀ c ∈ w, isQuoteChar c = false) (hne : w ≠ []) :
    trimQuotes (q :: (w ++ [q])) = w := by
  unfold trimQuotes
  rw [List.dropWhile_cons, if_pos hq]
  have h1 : (w ++ [q]).dropWhile isQuoteChar = w ++ [q] := by
    cases w with
    | nil => exact absurd rfl hne
    | cons c t =>
      rw [List.cons_append, List.dropWhile_cons, if_neg (by simp [hnq c (by simp)])]
  rw [h1]
  unfold dropTrailing
  have h2 : (w ++ [q]).reverse = q :: w.reverse := by
    rw [List.reverse_append]
    simp
  rw [h2, List.dropWhile_cons, if_pos hq,
    dropWhile_eq_self_of_all (fun c hc => hnq c (List.mem_reverse.mp hc)),
    List.reverse_reverse]

theorem stripGreen_append (w : Chars) : stripGreen (w ++ strOf "-green") = w := by
  unfold stripGreen
  rw [if_pos (List.isSuffixOf_iff_suffix.mpr (List.suffix_append w (strOf "-green")))]
  have h : (w ++ strOf "-green").length - 6 = w.length := by
    simp [List.length_append, strOf]
  rw [h, List.take_left]

/-! ### Claim C5 -/

/-- C5: for every Deployment document whose top-level `metadata.name`
key sits at metadata indent + 2 and carries a plain (unquoted,
non-templated) value `v`, base detection — `detectBaseFromTopMetadataName`
followed by the `-green` strip of `processFile` — returns `v` with a
trailing `-green` suffix stripped (`stripGreen`); if the value contains
`\x7b\x7b`, detection instead fails with the already-templated error. -/
theorem detect_plain_name_green (v rest : Chars) (hne : v ≠ [])
    (hns : ∀ c ∈ v, isUniSpace c = false) (hq : ∀ c ∈ v, isQuoteChar c = false) :
    (containsSub (strOf "\x7b\x7b") v = false →
      (detectBase (strOf "kind: Deployment\nmetadata:\n  name: " ++ v ++ '\n' :: rest)).map
          stripGreen = .ok (stripGreen v)) ∧
    (containsSub (strOf "\x7b\x7b") v = true →
      detectBase (strOf "kind: Deployment\nmetadata:\n  name: " ++ v ++ '\n' :: rest) =
        .error errTemplated) ∧
    (∀ w : Chars, stripGreen (w ++ strOf "-green") = w) := by
  have ht := detect_template v rest hne hns
  rw [trimQuotes_eq_self_of_all hq] at ht
  refine ⟨?_, ?_, stripGreen_append⟩
  · intro h
    rw [ht, if_neg (by simp [h])]
    rfl
  · intro h
    rw [ht, if_pos h]

/-- C5 witness: detection at the concrete names `web-green` (returning
base `web`) and `\x7b\x7bx\x7d\x7d` (failing as already templated). -/
theorem detect_plain_name_green_witness :
    (detectBase (strOf "kind: Deployment\nmetadata:\n  name: " ++ strOf "web-green" ++
      '\n' :: [])).map stripGreen = .ok (strOf "web") ∧
    detectBase (strOf "kind: Deployment\nmetadata:\n  name: " ++ strOf "\x7b\x7bx\x7d\x7d" ++
      '\n' :: []) = .error errTemplated := by
  constructor
  · have h := (detect_plain_name_green (strOf "web-green") [] (by decide) (by decide)
      (by decide)).1 (by decide)
    rw [h]
    rfl
  · exact (detect_plain_name_green (strOf "\x7b\x7bx\x7d\x7d") [] (by decide) (by decide)
      (by decide)).2.1 (by decide)

/-! ### Claim C10 -/

/-- C10: when the detected top-level `metadata.name` value is enclosed
in double or single quote characters, the detector returns the value
with the leading and trailing quote characters stripped, and the
already-templated (`\x7b\x7b`) check is applied to this unquoted
value. -/
theorem detect_quoted_name (q : Char) (w rest : Chars)
    (hq : q = '"' ∨ q = Char.ofNat 39) (hne : w ≠ [])
    (hns : ∀ c ∈ w, isUniSpace c = false) (hnq : ∀ c ∈ w, isQuoteChar c = false) :
    (containsSub (strOf "\x7b\x7b") w = false →
      detectBase (strOf "kind: Deployment\nmetadata:\n  name: " ++
        (q :: (w ++ [q])) ++ '\n' :: rest) = .ok w) ∧
    (containsSub (strOf "\x7b\x7b") w = true →
      detectBase (strOf "kind: Deployment\nmetadata:\n  name: " ++
        (q :: (w ++ [q])) ++ '\n' :: rest) = .error errTemplated) := by
  have hqc : isQuoteChar q = true := by
    rcases hq with h | h <;> subst h <;> decide
  have hquni : isUniSpace q = false := by
    rcases hq with h | h <;> subst h <;> decide
  have hne2 : q :: (w ++ [q]) ≠ [] := by simp
  have hns2 : ∀ c ∈ q :: (w ++ [q]), isUniSpace c = false := by
    intro c hc
    rcases List.mem_cons.mp hc with h | h
    · subst h; exact hquni
    · rcases List.mem_append.mp h with h1 | h1
      · exact hns c h1
      · simp at h1; subst h1; exact hquni
  have ht := detect_template (q :: (w ++ [q])) rest hne2 hns2
  rw [trimQuotes_wrap hqc hnq hne] at ht
  constructor
  · intro h
    rw [ht, if_neg (by simp [h])]
  · intro h
    rw [ht, if_pos h]

/-- C10 witness: a double-quoted and a single-quoted `myapp` both
detect as the bare `myapp`. -/
theorem detect_quoted_name_witness :
    detectBase (strOf "kind: Deployment\nmetadata:\n  name: " ++
      ('"' :: (strOf "myapp" ++ ['"'])) ++ '\n' :: []) = .ok (strOf "myapp") ∧
    detectBase (strOf "kind: Deployment\nmetadata:\n  name: " ++
      (Char.ofNat 39 :: (strOf "myapp" ++ [Char.ofNat 39])) ++ '\n' :: []) =
        .ok (strOf "myapp") := by
  constructor
  · exact (detect_quoted_name '"' (strOf "myapp") [] (Or.inl rfl) (by decide)
      (by decide) (by decide)).1 (by decide)
  · exact (detect_quoted_name (Char.ofNat 39) (strOf "myapp") [] (Or.inr rfl) (by decide)
      (by decide) (by decide)).1 (by decide)

/-! ### Projections of the three step components -/

theorem keyStep_stack (st : St) (kind : Chars) (i : Nat) (k v : Chars) :
    (keyStep st kind i k v).stack =
      (i, k) :: st.stack.dropWhile (fun e => decide (i ≤ e.1)) := by
  simp only [keyStep]
  split_ifs <;> rfl

theorem keyStep_buf (st : St) (kind : Chars) (i : Nat) (k v : Chars) :
    (keyStep st kind i k v).buf = st.buf := by
  simp only [keyStep]
  split_ifs <;> rfl

theorem gapStep_stack (st : St) (ci : Nat) :
    (gapStep st ci).stack = st.stack.dropWhile (fun e => decide (ci ≤ e.1)) := by
  simp only [gapStep]
  split_ifs <;> rfl

theorem emitStep_stack (st2 : St) (line : Chars) :
    (emitStep st2 line).stack = st2.stack := by
  simp only [emitStep]
  split_ifs <;>
    first
      | rfl
      | (cases hmd : matchDashName line with
          | none => rfl
          | some pr => cases pr with | mk a b => rfl)

theorem emitStep_bstate (st2 : St) (line : Chars) :
    (emitStep st2 line).bstate = st2.bstate := by
  simp only [emitStep]
  split_ifs <;>
    first
      | rfl
      | (cases hmd : matchDashName line with
          | none => rfl
          | some pr => cases pr with | mk a b => rfl)

theorem emitStep_kind (st2 : St) (line : Chars) :
    (emitStep st2 line).kind = st2.kind := by
  simp only [emitStep]
  split_ifs <;>
    first
      | rfl
      | (cases hmd : matchDashName line with
          | none => rfl
          | some pr => cases pr with | mk a b => rfl)

/-- The stack after one step, for any line. -/
theorem step_stack (st : St) (line : Chars) :
    (step st line).stack =
      match matchKey line with
      | some (i, k, _) => (i, k) :: st.stack.dropWhile (fun e => decide (i ≤ e.1))
      | none => st.stack.dropWhile (fun e => decide (countIndent line ≤ e.1)) := by
  cases hkey : matchKey line with
  | some t =>
    obtain ⟨i, k, v⟩ := t
    simp only [step, hkey, emitStep_stack, keyStep_stack]
  | none =>
    simp only [step, hkey, emitStep_stack, gapStep_stack]

/-- The kind after one step. -/
theorem step_kind (st : St) (line : Chars) :
    (step st line).kind =
      match matchKind line with
      | some k => k
      | none => st.kind := by
  cases hkey : matchKey line with
  | some t =>
    obtain ⟨i, k, v⟩ := t
    simp only [step, hkey, emitStep_kind]
  | none =>
    simp only [step, hkey, emitStep_kind]

/-! ### Claim C9 -/

/-- C9: at every step of the line scan, the key-path stack is strictly
increasing in indent from the outermost (bottom) entry to the innermost
(top) one (`StackOrd` with the top at the head); and on every key line
the entries with indent ≥ the new indent are exactly the ones popped
before the new `(indent, key)` entry is pushed. -/
theorem stack_strictly_ordered :
    (∀ (buf0 : Chars) (ls : List Chars), StackOrd (stepAll (initSt buf0) ls).stack) ∧
    (∀ (st : St) (line : Chars) (i : Nat) (k v : Chars), StackOrd st.stack →
      matchKey line = some (i, k, v) →
      (step st line).stack = (i, k) :: st.stack.filter (fun e => decide (e.1 < i))) := by
  constructor
  · intro buf0 ls
    have hinv : ∀ (st : St), StackOrd st.stack → StackOrd (stepAll st ls).stack := by
      induction ls with
      | nil => intro st h; exact h
      | cons l t ih =>
        intro st h
        show StackOrd (stepAll (step st l) t).stack
        apply ih
        rw [step_stack]
        cases hk : matchKey l with
        | some p =>
          obtain ⟨i, k, v⟩ := p
          exact stackOrd_push h
        | none => exact stackOrd_dropWhile _ h
    exact hinv (initSt buf0) (by simp [StackOrd, initSt])
  · intro st line i k v hord hkey
    rw [step_stack]
    simp only [hkey]
    rw [dropWhile_eq_filter_of_ord hord]

/-- C9 witness: the invariant holds after scanning two nested keys, and
a dedenting key line pops exactly the deeper entries. -/
theorem stack_strictly_ordered_witness :
    StackOrd (stepAll (initSt []) [strOf "metadata:\n", strOf "  labels:\n"]).stack ∧
    (step (stepAll (initSt []) [strOf "metadata:\n", strOf "  labels:\n"])
        (strOf "spec:")).stack =
      (0, strOf "spec") ::
        (stepAll (initSt []) [strOf "metadata:\n", strOf "  labels:\n"]).stack.filter
          (fun e => decide (e.1 < 0)) := by
  constructor
  · exact stack_strictly_ordered.1 [] [strOf "metadata:\n", strOf "  labels:\n"]
  · exact stack_strictly_ordered.2 _ (strOf "spec:") 0 (strOf "spec") []
      (by decide) (by decide)

/-! ### Claim C6 -/

/-- C6: a file on which base detection (or any part of `processFile`)
fails is left unmodified in the resulting filesystem — no backup entry
and no transformed output are written for it — the error is reported
for that file, and the remaining files of the batch are still processed
exactly as they would be on their own. -/
theorem batch_error_isolation (pre post : List (Chars × Chars)) (p c e : Chars)
    (h : processC c = .error e) :
    runBatch (pre ++ (p, c) :: post) =
      ((runBatch pre).1 ++ (p, c) :: (runBatch post).1,
       (runBatch pre).2 ++ (strOf "ERROR " ++ p ++ strOf ": " ++ e) :: (runBatch post).2) := by
  induction pre with
  | nil => simp [runBatch, h]
  | cons qd pre' ih =>
    obtain ⟨q, d⟩ := qd
    cases hd : processC d with
    | ok o => simp [runBatch, hd, ih]
    | error f => simp [runBatch, hd, ih]

/-- C6 witness: a batch of two files whose first member has no
detectable `metadata.name`; the first file keeps its content, gets no
backup, is reported on, and the second file is still processed. -/
theorem batch_error_isolation_witness :
    runBatch [(strOf "a.yaml", strOf "kind: Deployment\n"),
              (strOf "b.yaml", strOf "kind: Deployment\nmetadata:\n  name: web\n")] =
      (((strOf "a.yaml", strOf "kind: Deployment\n") ::
          (runBatch [(strOf "b.yaml",
            strOf "kind: Deployment\nmetadata:\n  name: web\n")]).1),
       ((strOf "ERROR a.yaml: detect base: top-level metadata.name not found for Deployment") ::
          (runBatch [(strOf "b.yaml",
            strOf "kind: Deployment\nmetadata:\n  name: web\n")]).2)) := by
  have h := batch_error_isolation []
    [(strOf "b.yaml", strOf "kind: Deployment\nmetadata:\n  name: web\n")]
    (strOf "a.yaml") (strOf "kind: Deployment\n")
    (strOf "detect base: " ++ errNotFound) (by decide)
  simp only [List.nil_append] at h
  rw [h]
  rfl


/-! ### Copy behavior of the step components -/

theorem emitStep_of_kind_ne {st2 : St} (line : Chars)
    (hk : st2.kind ≠ strOf "Deployment") :
    emitStep st2 line = { st2 with buf := st2.buf ++ line } := by
  simp only [emitStep]
  rw [if_neg (fun h => hk h.1), if_neg (fun h => hk h.1), if_neg (fun h => hk h.1),
    if_neg (fun h => hk h.1)]

theorem gapStep_of_no_labels {st : St} (ci : Nat)
    (h1 : st.bstate ≠ BState.inTopLabels) (h2 : st.bstate ≠ BState.inTemplateLabels) :
    gapStep st ci = { st with stack := st.stack.dropWhile (fun e => decide (ci ≤ e.1)) } := by
  simp only [gapStep]
  rw [if_neg (fun h => h1 h.1), if_neg (fun h => h2 h.1)]

theorem keyStep_of_kind_ne {st : St} {kind : Chars} (i : Nat) (k v : Chars)
    (hk : kind ≠ strOf "Deployment") :
    keyStep st kind i k v =
      { st with stack := (i, k) :: st.stack.dropWhile (fun e => decide (i ≤ e.1)) } := by
  simp only [keyStep]
  rw [if_neg hk]

/-- One step while the current kind is not Deployment and no labels
block is pending: the line is copied byte for byte and the block state
is unchanged. -/
theorem step_nonDeployment (st : St) (line : Chars)
    (hk : (match matchKind line with | some k => k | none => st.kind) ≠ strOf "Deployment")
    (h1 : st.bstate ≠ BState.inTopLabels) (h2 : st.bstate ≠ BState.inTemplateLabels) :
    (step st line).buf = st.buf ++ line ∧ (step st line).bstate = st.bstate ∧
      (step st line).kind = (match matchKind line with | some k => k | none => st.kind) := by
  cases hkey : matchKey line with
  | some t =>
    obtain ⟨i, k, v⟩ := t
    simp only [step, hkey, keyStep_of_kind_ne i k v hk]
    rw [emitStep_of_kind_ne line (by exact hk)]
    simp
  | none =>
    simp only [step, hkey, gapStep_of_no_labels (countIndent line) h1 h2]
    rw [emitStep_of_kind_ne line (by exact hk)]
    simp

/-! ### Claim C7 -/

/-- C7 amended: while the current kind is not Deployment and no labels
block opened by an earlier Deployment section is still pending, every
line of the scan is copied to the output byte for byte (and the block
state stays inactive); the pending-labels caveat is forced by the
counterexample, where a dangling `metadata.labels` block makes the
end-of-file include injection fire inside a Service section. -/
theorem nonDeployment_passthrough (ls : List Chars) : ∀ (st : St),
    st.kind ≠ strOf "Deployment" →
    st.bstate ≠ BState.inTopLabels → st.bstate ≠ BState.inTemplateLabels →
    (∀ l ∈ ls, matchKind l ≠ some (strOf "Deployment")) →
    (stepAll st ls).buf = st.buf ++ ls.flatten ∧ (stepAll st ls).bstate = st.bstate := by
  induction ls with
  | nil =>
    intro st hk h1 h2 hall
    simp [stepAll]
  | cons l t ih =>
    intro st hk h1 h2 hall
    have hkind' : (match matchKind l with | some k => k | none => st.kind) ≠
        strOf "Deployment" := by
      cases hm : matchKind l with
      | some k =>
        intro hkD
        exact hall l (by simp)
          (hm.trans (congrArg some (show k = strOf "Deployment" from hkD)))
      | none => exact hk
    obtain ⟨hbuf, hbst, hkd⟩ := step_nonDeployment st l hkind' h1 h2
    have hrec := ih (step st l) (by rw [hkd]; exact hkind') (by rw [hbst]; exact h1)
      (by rw [hbst]; exact h2) (fun x hx => hall x (by simp [hx]))
    rw [show stepAll st (l :: t) = stepAll (step st l) t from rfl]
    obtain ⟨hb, hs⟩ := hrec
    refine ⟨?_, by rw [hs, hbst]⟩
    rw [hb, hbuf, List.flatten_cons, List.append_assoc]

/-- C7 witness: a Service section scanned from a neutral state is
appended to the buffer verbatim. -/
theorem nonDeployment_passthrough_witness :
    (stepAll { kind := strOf "Service", stack := [], bstate := BState.ground,
               topMetaIndent := -1, labelsIndent := -1, tplLabelsIndent := -1,
               buf := strOf "x" }
        [strOf "metadata:\n", strOf "  name: svc\n"]).buf =
      strOf "x" ++ [strOf "metadata:\n", strOf "  name: svc\n"].flatten := by
  exact (nonDeployment_passthrough [strOf "metadata:\n", strOf "  name: svc\n"]
    _ (by decide) (by decide) (by decide) (by decide)).1

def exC7 : Chars := strOf "kind: Deployment\nmetadata:\n  name: foo\n  labels:\nkind: Service"

/-- C7 counterexample: a Deployment whose `metadata.labels` block is
still open when a `kind: Service` line (the last line, without a
trailing newline) arrives; the end-of-file include injection glues a
selector-include onto the Service line, so the non-Deployment content
is not passed through byte for byte. -/
theorem nonDeployment_counterexample :
    (processC exC7).isOk = true ∧
    countSub (runOnce exC7) (strOf "kind: Service\x7b\x7b- include") = 1 := by decide


/-! ### Claim C1 -/

def exC1 : Chars := strOf "kind: Deployment\nmetadata:\n  name: foo\n  labels:\n    team: core\n"

/-- C1 counterexample: a Deployment whose `metadata.labels` body holds
the line `    team: core`; after rewriting the line is still present,
so the body is not fully replaced by the injected include. -/
theorem labels_body_kept_counterexample :
    (processC exC1).isOk = true ∧
    countSub (runOnce exC1) (strOf "    team: core") = 1 := by decide

/-- C1 amended: inside an open labels block of a Deployment the
rewriter drops only `app:`-prefixed body lines (at indent ≥ labels
indent + 2); any other non-key body line is copied verbatim; and the
single selector-labels include at labels indent + 2 is injected only
when a non-key line at indent ≤ the labels indent closes the block
while it is still active (or, equivalently in `processC`, at end of
file).  The six conjuncts cover drop/copy/inject for `metadata.labels`
and for `spec.template.metadata.labels`. -/
theorem labels_block_step_behavior :
    (∀ (st : St) (line : Chars),
      st.kind = strOf "Deployment" → st.bstate = BState.inTopLabels →
      matchKind line = none → matchKey line = none →
      st.labelsIndent < (countIndent line : Int) →
      isAppLabelLine line (st.labelsIndent + 2) = true →
      (step st line).buf = st.buf ∧ (step st line).bstate = BState.inTopLabels) ∧
    (∀ (st : St) (line : Chars),
      st.bstate = BState.inTopLabels →
      matchKind line = none → matchKey line = none →
      st.labelsIndent < (countIndent line : Int) →
      isAppLabelLine line (st.labelsIndent + 2) = false →
      (step st line).buf = st.buf ++ line ∧ (step st line).bstate = BState.inTopLabels) ∧
    (∀ (st : St) (line : Chars),
      st.bstate = BState.inTopLabels →
      matchKind line = none → matchKey line = none →
      (countIndent line : Int) ≤ st.labelsIndent →
      hasIncludeSelector (tailBytes 800 st.buf) = false →
      matchNameKV (trimLeftSpaces line) = none →
      (step st line).buf = st.buf ++ includeLineFor (st.labelsIndent + 2) ++ '\n' :: line ∧
        (step st line).bstate = BState.inTopMetadata) ∧
    (∀ (st : St) (line : Chars),
      st.kind = strOf "Deployment" → st.bstate = BState.inTemplateLabels →
      matchKind line = none → matchKey line = none →
      st.tplLabelsIndent < (countIndent line : Int) →
      isAppLabelLine line (st.tplLabelsIndent + 2) = true →
      (step st line).buf = st.buf ∧ (step st line).bstate = BState.inTemplateLabels) ∧
    (∀ (st : St) (line : Chars),
      st.bstate = BState.inTemplateLabels →
      matchKind line = none → matchKey line = none →
      st.tplLabelsIndent < (countIndent line : Int) →
      isAppLabelLine line (st.tplLabelsIndent + 2) = false →
      (step st line).buf = st.buf ++ line ∧
        (step st line).bstate = BState.inTemplateLabels) ∧
    (∀ (st : St) (line : Chars),
      st.bstate = BState.inTemplateLabels →
      matchKind line = none → matchKey line = none →
      (countIndent line : Int) ≤ st.tplLabelsIndent →
      hasIncludeSelector (tailBytes 800 st.buf) = false →
      (step st line).buf = st.buf ++ includeLineFor (st.tplLabelsIndent + 2) ++ '\n' :: line ∧
        (step st line).bstate = BState.inTemplateMetadata) := by
  refine ⟨?_, ?_, ?_, ?_, ?_, ?_⟩
  · intro st line hk hs hmk hkey hlt happ
    simp only [step, hmk, hkey, gapStep, emitStep]
    rw [hs, hk]
    simp [hs, hk, happ, not_le.mpr hlt]
  · intro st line hs hmk hkey hlt happ
    simp only [step, hmk, hkey, gapStep, emitStep]
    rw [hs]
    simp [hs, happ, not_le.mpr hlt]
  · intro st line hs hmk hkey hle hguard hname
    simp only [step, hmk, hkey, gapStep, emitStep, ensureSelectorInclude]
    rw [hs]
    simp [hs, hle, hguard, hname]
  · intro st line hk hs hmk hkey hlt happ
    simp only [step, hmk, hkey, gapStep, emitStep]
    rw [hs, hk]
    simp [hs, hk, happ, not_le.mpr hlt]
  · intro st line hs hmk hkey hlt happ
    simp only [step, hmk, hkey, gapStep, emitStep]
    rw [hs]
    simp [hs, happ, not_le.mpr hlt]
  · intro st line hs hmk hkey hle hguard
    simp only [step, hmk, hkey, gapStep, emitStep, ensureSelectorInclude]
    rw [hs]
    simp [hs, hle, hguard]

def stC1 : St :=
  { kind := strOf "Deployment", stack := [(2, strOf "labels"), (0, strOf "metadata")],
    bstate := BState.inTopLabels, topMetaIndent := 0, labelsIndent := 2,
    tplLabelsIndent := -1, buf := strOf "B" }

/-- C1 witness: inside an open `metadata.labels` block an `app:` body
line is dropped, a `team:` body line is copied, and a blank line closes
the block by injecting the include. -/
theorem labels_block_step_behavior_witness :
    (step stC1 (strOf "    app: x\n")).buf = stC1.buf ∧
    (step stC1 (strOf "    team: y\n")).buf = stC1.buf ++ strOf "    team: y\n" ∧
    (step stC1 (strOf "\n")).buf =
      stC1.buf ++ includeLineFor (stC1.labelsIndent + 2) ++ '\n' :: strOf "\n" := by
  refine ⟨(labels_block_step_behavior.1 stC1 _ (by decide) (by decide) (by decide)
      (by decide) (by decide) (by decide)).1,
    (labels_block_step_behavior.2.1 stC1 _ (by decide) (by decide) (by decide)
      (by decide) (by decide)).1,
    (labels_block_step_behavior.2.2.1 stC1 _ (by decide) (by decide) (by decide)
      (by decide) (by decide) (by decide)).1⟩

/-! ### Claim C2 -/

def exC2 : Chars := strOf "kind: Deployment\nmetadata:\n  name: foo\nspec:\n  selector:\n    matchLabels:\n      app: foo\n"

/-- C2 counterexample: a Deployment with a `spec.selector.matchLabels`
block whose body line `      app: foo` is copied to the output
unchanged and no selector-labels include is injected anywhere. -/
theorem matchLabels_counterexample :
    (processC exC2).isOk = true ∧
    countSub (runOnce exC2) (strOf "      app: foo") = 1 ∧
    countSub (runOnce exC2) (strOf "selectorLabelsFor") = 0 := by decide

theorem dropWhile_go_trimLeft (l : Chars) :
    (trimLeftSpaces l).dropWhile isGoSpace = l.dropWhile isGoSpace := by
  induction l with
  | nil => rfl
  | cons c t ih =>
    unfold trimLeftSpaces at ih ⊢
    by_cases hc : c = ' '
    · rw [List.dropWhile_cons, if_pos (by simp [hc]), ih,
        List.dropWhile_cons (p := isGoSpace), if_pos (by simp [hc, isGoSpace])]
    · rw [List.dropWhile_cons, if_neg (by simp [hc])]

/-- C2 amended: the rewriter has no rule for `spec.selector.matchLabels`:
a `matchLabels:` key line triggers no state transition, no include
injection and no rewrite — it is copied to the output byte for byte and
the block state is unchanged (its body lines are only affected when an
earlier labels block is still open and its `app:`-drop rule fires). -/
theorem matchLabels_line_copied (st : St) (line : Chars) (i : Nat) (v : Chars)
    (hkey : matchKey line = some (i, strOf "matchLabels", v)) :
    (step st line).buf = st.buf ++ line ∧ (step st line).bstate = st.bstate := by
  obtain ⟨rest, hshape⟩ := matchKey_shape hkey
  have hsplit : line = line.takeWhile isGoSpace ++ (strOf "matchLabels" ++ ':' :: rest) := by
    conv_lhs => rw [← List.takeWhile_append_dropWhile (p := isGoSpace) (l := line)]
    rw [hshape]
  have hmk : matchKind line = none := by
    simp only [matchKind, hshape]
    rw [if_neg (by simp [strOf, List.isPrefixOf])]
  have hname : matchNameKV (trimLeftSpaces line) = none := by
    simp only [matchNameKV, dropWhile_go_trimLeft, hshape]
    rw [if_neg (by simp [strOf, List.isPrefixOf])]
  have hdash : matchDashName line = none := by
    simp only [matchDashName, hshape]
    rfl
  have happ : ∀ x : Int, isAppLabelLine line x = false := by
    intro x
    have htr : line.dropWhile isUniSpace = strOf "matchLabels" ++ ':' :: rest := by
      conv_lhs => rw [hsplit]
      rw [dropWhile_append_of_all (fun c hc => goSpace_uniSpace (List.mem_takeWhile_imp hc))]
      rw [show strOf "matchLabels" ++ ':' :: rest =
        'm' :: (strOf "atchLabels" ++ ':' :: rest) from rfl]
      rw [List.dropWhile_cons, if_neg (by decide)]
    unfold isAppLabelLine trimSpace
    rw [htr]
    have hpre := dropTrailing_isPrefixOf_self isUniSpace (strOf "matchLabels" ++ ':' :: rest)
    cases hdt : dropTrailing isUniSpace (strOf "matchLabels" ++ ':' :: rest) with
    | nil => simp [List.isPrefixOf]
    | cons c0 t0 =>
      rw [hdt] at hpre
      obtain ⟨s, hs2⟩ := hpre
      rw [show strOf "matchLabels" ++ ':' :: rest =
        'm' :: (strOf "atchLabels" ++ ':' :: rest) from rfl] at hs2
      have hh := congrArg List.head? hs2
      simp at hh
      subst hh
      simp [List.isPrefixOf]
  have hsuf := pathOf_cons_suffix i (strOf "matchLabels")
    (st.stack.dropWhile (fun e => decide (i ≤ e.1)))
  simp only [step, hmk, hkey]
  rw [show keyStep st st.kind i (strOf "matchLabels") v =
      { st with stack := (i, strOf "matchLabels") ::
          st.stack.dropWhile (fun e => decide (i ≤ e.1)) } from by
    simp only [keyStep]
    by_cases hD : st.kind = strOf "Deployment"
    · rw [if_pos hD,
        if_neg (fun h => absurd (h.1 ▸ hsuf) (by decide)),
        if_neg (fun h => absurd h.2.1 (by decide)),
        if_neg (fun h => absurd (h.1 ▸ hsuf) (by decide)),
        if_neg (fun h => absurd h.2.1 (by decide)),
        if_neg (fun h => absurd (h.1 ▸ hsuf) (by decide))]
    · rw [if_neg hD]]
  simp only [emitStep]
  rw [if_neg (fun h => by simp [hname] at h),
    if_neg (fun h => by simp [happ] at h),
    if_neg (fun h => by simp [happ] at h),
    if_neg (fun h => by simp [hdash] at h)]
  exact ⟨rfl, rfl⟩

/-- C2 witness: a concrete `    matchLabels:` line is copied verbatim
from a containers-list state. -/
theorem matchLabels_line_copied_witness :
    (step { kind := strOf "Deployment", stack := [(2, strOf "selector"), (0, strOf "spec")],
            bstate := BState.inContainersList, topMetaIndent := 0, labelsIndent := 2,
            tplLabelsIndent := -1, buf := strOf "B" } (strOf "    matchLabels:\n")).buf =
      strOf "B" ++ strOf "    matchLabels:\n" := by
  exact (matchLabels_line_copied _ (strOf "    matchLabels:\n") 4 [] (by decide)).1

/-! ### Claim C3 -/

def exC3 : Chars := strOf "kind: Deployment\nmetadata:\n  name: foo\nspec:\n  template:\n    spec:\n      containers:\n        - name: first\n          image: img\n        - name: second\n"

/-- C3 (code bug): on a Deployment with two container entries the
rewriter rewrites both `- name:` lines to the base placeholder; the
second entry is not left untouched. -/
theorem containers_rewrite_all :
    (processC exC3).isOk = true ∧
    countSub (runOnce exC3) (strOf "- name: \x7b\x7b $base \x7d\x7d") = 2 ∧
    countSub (runOnce exC3) (strOf "second") = 0 := by decide

/-! ### Claim C4 -/

def exC4 : Chars := strOf "kind: Deployment\nother:\n  metadata:\n    name: keepme\nmetadata:\n  labels:\n    app: x\n\n"

/-- C4 (code bug): on this input, whose detected `metadata.name` is not
the one the rewriter templates, a second run still passes detection and
injects a second selector-labels include line, so running the rewriter
twice does not equal running it once. -/
theorem rerun_duplicates_include :
    runOnce (runOnce exC4) ≠ runOnce exC4 ∧
    countSub (runOnce exC4) (strOf "selectorLabelsFor") = 1 ∧
    countSub (runOnce (runOnce exC4)) (strOf "selectorLabelsFor") = 2 := by decide

/-! ### Claim C8 -/

def exC8 : Chars :=
  strOf "A\n" ++ nameHeaderLine ++ strOf "X\n" ++ nameHeaderLine ++ '\n' :: strOf "B"

/-- C8 counterexample: a rendered output in which the header marker
occurs twice on separate lines; the collapse leaves both occurrences in
place, so the output is not reduced to the first occurrence only. -/
theorem collapse_counterexample :
    1 < countSub exC8 nameForMarker ∧
    countSub (collapseHeader true exC8) nameForMarker = 2 := by decide

theorem containsSub_append_left (pat a b : Chars) (h : containsSub pat b = true) :
    containsSub pat (a ++ b) = true := by
  induction a with
  | nil => simpa
  | cons c t ih => simp [containsSub, ih]

/-- C8 amended: when the header was inserted by this run, the marker
occurs more than once, and the full `$name` header line occurs with a
later newline, the collapse only deletes the remainder of the line
after the first full `$name` line; everything after that newline —
including any later marker occurrence — is preserved. -/
theorem collapse_keeps_tail (out t u x y : Chars)
    (hc : 1 < countSub out nameForMarker)
    (h1 : splitFirst nameHeaderLine out = some (t, u))
    (h2 : splitFirst ['\n'] u = some (x, y)) :
    collapseHeader true out = t ++ nameHeaderLine ++ '\n' :: y ∧
    (containsSub nameForMarker y = true →
      containsSub nameForMarker (collapseHeader true out) = true) := by
  have hcol : collapseHeader true out = t ++ nameHeaderLine ++ '\n' :: y := by
    simp only [collapseHeader, h1, h2]
    rw [if_pos ⟨trivial, hc⟩]
  refine ⟨hcol, fun hy => ?_⟩
  rw [hcol]
  have hy2 : containsSub nameForMarker ('\n' :: y) = true := by
    rw [show ('\n' :: y : Chars) = ['\n'] ++ y from rfl]
    exact containsSub_append_left _ _ _ hy
  exact containsSub_append_left _ _ _ hy2

/-- C8 witness: the collapse applied to the double-marker output keeps
the whole tail after the first `$name` line, second marker included. -/
theorem collapse_keeps_tail_witness :
    collapseHeader true exC8 =
      strOf "A\n" ++ nameHeaderLine ++ '\n' :: (nameHeaderLine ++ '\n' :: strOf "B") ∧
    containsSub nameForMarker (collapseHeader true exC8) = true := by
  have h := collapse_keeps_tail exC8 (strOf "A\n")
    (strOf "X\n" ++ nameHeaderLine ++ '\n' :: strOf "B") (strOf "X")
    (nameHeaderLine ++ '\n' :: strOf "B") (by decide) (by decide) (by decide)
  exact ⟨h.1, h.2 (by decide)⟩

end YmlHelper
